import Mathlib

/-!
Verification development for scrape_wb.py: a shallow embedding of the
category-tree scraper (data model, the recursive walk of the category forest,
the facet fetch with its failure-swallowing wrapper, and a small-step
interleaving semantics for the concurrent walk with its semaphore), together
with theorems settling the specification's claims.
-/

/-- One output row handed to ExcelSaver.write (lines 81-83 of the source):
sheet group, id, name, depth and the optional parent id. -/
structure FlatRecord where
  sheetGroup : String
  id : Int
  name : String
  depth : Nat
  parentId : Option Int
  deriving DecidableEq, Repr

/-- Pydantic model Category (lines 41-54): id, name, optional shard, optional
query, optional url and an optional list of child categories (field childs). -/
inductive Category : Type where
  | mk (id : Int) (name : String) (shard : Option String) (query : Option String)
      (url : Option String) (childs : Option (List Category)) : Category

/-- Field accessor for Category.id. -/
def Category.id : Category → Int
  | .mk i _ _ _ _ _ => i

/-- Field accessor for Category.name. -/
def Category.name : Category → String
  | .mk _ nm _ _ _ _ => nm

/-- Field accessor for Category.shard. -/
def Category.shard : Category → Option String
  | .mk _ _ sh _ _ _ => sh

/-- Field accessor for Category.query. -/
def Category.query : Category → Option String
  | .mk _ _ _ q _ _ => q

/-- Field accessor for Category.childs. -/
def Category.childs : Category → Option (List Category)
  | .mk _ _ _ _ _ ch => ch

/-- Python truthiness of an optional string: None and the empty string are
falsy, every other string is truthy. -/
def optStrTruthy : Option String → Bool
  | none => false
  | some s => !(s == "")

/-- Python truthiness of the childs field as tested by the line
`if cat.childs:` — None and the empty list are falsy. -/
def childsNonempty : Option (List Category) → Bool
  | none => false
  | some l => !l.isEmpty

/-- The list actually iterated when the childs field is truthy. -/
def childsList : Option (List Category) → List Category
  | none => []
  | some l => l

/-- Guard of the elif branch at line 122: `cat.shard and cat.query`, with
Python truthiness on both optional strings. -/
def hasParams (cat : Category) : Bool :=
  optStrTruthy cat.shard && optStrTruthy cat.query

/-- The record written for a category node itself at line 115:
`self.excel.write(sheet_name, cat.id, cat.name, depth, parent_id)`. -/
def catRecordOf (cat : Category) (depth : Nat) (parentId : Option Int)
    (sheet : String) : FlatRecord :=
  ⟨sheet, cat.id, cat.name, depth, parentId⟩

/-- One entry of the items array of a filter group in the secondary endpoint's
JSON; id and name are read with dict.get and may be absent. -/
structure RawItem where
  id : Option Int
  name : Option String
  deriving DecidableEq, Repr

/-- One filter group of the secondary endpoint's JSON: an optional name and an
items field that is either a list or absent/not-a-list (modelled as none,
matching the isinstance check at line 133). -/
structure RawGroup where
  name : Option String
  items : Option (List RawItem)
  deriving DecidableEq, Repr

/-- The value under the data key of the secondary endpoint's JSON; the filters
key may be absent (line 131 defaults it to the empty list). -/
structure RawData where
  filters : Option (List RawGroup)
  deriving DecidableEq, Repr

/-- A parsed secondary-endpoint response; the data key may be absent (line 130
defaults it to an empty dict). -/
structure RawResponse where
  data : Option RawData
  deriving DecidableEq, Repr

/-- The group list obtained by `resp.json().get("data", {}).get("filters", [])`
(lines 130-131): absent data or absent filters gives the empty list. -/
def RawResponse.filtersOf (r : RawResponse) : List RawGroup :=
  match r.data with
  | none => []
  | some d => d.filters.getD []

/-- Records produced from one filter group (lines 132-141): only a group whose
name is "Категория" and whose items field is a list contributes, one record per
item, with id defaulted to 0, name defaulted to "Unnamed", depth 99 and the
owning category's id as parent. -/
def facetGroupRecords (g : RawGroup) (catId : Int) (sheet : String) :
    List FlatRecord :=
  match g.items with
  | some its =>
    if g.name = some "Категория" then
      its.map fun it => ⟨sheet, it.id.getD 0, it.name.getD "Unnamed", 99, some catId⟩
    else []
  | none => []

/-- All facet records parsed from one secondary-endpoint response
(lines 130-141). -/
def facetRecordsResp (resp : RawResponse) (catId : Int) (sheet : String) :
    List FlatRecord :=
  resp.filtersOf.flatMap fun g => facetGroupRecords g catId sheet

/-- Decorator safe_api_call (lines 31-39): the wrapped coroutine's outcome is
either a value or an exception; an exception is caught, a diagnostic line is
printed, and None is returned in its place. -/
def safe_api_call (fname : String) : Except String α → Option α × List String
  | .ok a => (some a, [])
  | .error e => (none, ["Error in " ++ fname ++ ": " ++ e])

/-- Environment of remote responses for the facet fetch: the outcome of the
network request plus JSON parse inside _fetch_items for a given shard and
query, before safe_api_call is applied. -/
def FetchEnv := String → String → Except String RawResponse

/-- The _fetch_items call (lines 125-141) seen through safe_api_call: the list
of records it writes paired with the diagnostics it prints. -/
def fetchItemsCall (env : FetchEnv) (cat : Category) (sheet : String) :
    Option (List FlatRecord) × List String :=
  safe_api_call "_fetch_items"
    (Except.map (fun resp => facetRecordsResp resp cat.id sheet)
      (env (cat.shard.getD "") (cat.query.getD "")))

/-- The records _fetch_items contributes for a leaf: empty when the fetch
fails, the parsed facet records when it succeeds. -/
def fetchItemsRecords (env : FetchEnv) (cat : Category) (sheet : String) :
    List FlatRecord :=
  ((fetchItemsCall env cat sheet).1).getD []

/-- Denotation of _recurse (lines 114-123) under the sequential schedule: the
node's own record, followed by the records of all children when the childs
field is truthy, else the facet records when both shard and query are truthy,
else nothing. The set of emitted records is schedule-independent, which the
small-step semantics below makes precise. -/
def recurseRecords (env : FetchEnv) : Category → Nat → Option Int → String →
    List FlatRecord
  | cat, depth, parentId, sheet =>
    catRecordOf cat depth parentId sheet ::
      (if childsNonempty cat.childs then
        (childsList cat.childs).attach.flatMap fun sub =>
          recurseRecords env sub.1 (depth + 1) (some cat.id) sheet
      else if hasParams cat then fetchItemsRecords env cat sheet
      else [])
termination_by cat => sizeOf cat
decreasing_by
  cases cat with
  | mk i nm sh q u ch =>
    cases ch with
    | none => exact absurd sub.2 (by simp [childsList, Category.childs])
    | some l =>
      have hlt := List.sizeOf_lt_of_mem sub.2
      simp only [childsList, Category.childs] at hlt ⊢
      simp only [Category.mk.sizeOf_spec, Option.some.sizeOf_spec]
      omega

/-- Denotation of _process_all (lines 110-112): each root category is walked
with depth 1, no parent, and its own name as sheet group. -/
def processAllRecords (env : FetchEnv) (cats : List Category) :
    List FlatRecord :=
  cats.flatMap fun cat => recurseRecords env cat 1 none cat.name

/-- Denotation of scrape (lines 96-102): the root fetch outcome passes through
safe_api_call; on failure or an empty catalog nothing is processed; the Excel
file is saved unconditionally afterwards. Result: emitted records, whether the
sink was finalized, and the printed diagnostics. -/
def scrapeModel (root : Except String (List Category)) (env : FetchEnv) :
    List FlatRecord × Bool × List String :=
  match safe_api_call "_fetch_main_menu" root with
  | (some cats, diags) =>
    (if cats.isEmpty then [] else processAllRecords env cats, true, diags)
  | (none, diags) => ([], true, diags)

/-- State of one logical branch (coroutine) of the concurrent walk:
either about to run the body of _recurse for a node, awaiting an
asyncio.gather over child branches, waiting to acquire the semaphore inside
_fetch_items, holding the semaphore while the GET is in flight, or finished. -/
inductive Proc : Type where
  | recurse (cat : Category) (depth : Nat) (parentId : Option Int) (sheet : String) : Proc
  | gather (ps : List Proc) : Proc
  | waitSem (cat : Category) (sheet : String) : Proc
  | inFlight (cat : Category) (sheet : String) : Proc
  | done : Proc

/-- Small-step interleaving semantics of the walk. A configuration is a
process together with the semaphore's free-slot count; a step rewrites one
enabled branch and reports the records that branch writes during the step.
Writes are synchronous in the source (no await between them), so each step's
record list is emitted atomically. -/
inductive Step (env : FetchEnv) :
    Proc → Nat → Proc → Nat → List FlatRecord → Prop where
  | expand : ∀ i nm sh q u c cs depth p s n,
      Step env (.recurse (Category.mk i nm sh q u (some (c :: cs))) depth p s) n
        (.gather ((c :: cs).map fun sub => .recurse sub (depth + 1) (some i) s)) n
        [catRecordOf (Category.mk i nm sh q u (some (c :: cs))) depth p s]
  | toFetch : ∀ cat depth p s n,
      childsNonempty cat.childs = false → hasParams cat = true →
      Step env (.recurse cat depth p s) n (.waitSem cat s) n
        [catRecordOf cat depth p s]
  | toLeaf : ∀ cat depth p s n,
      childsNonempty cat.childs = false → hasParams cat = false →
      Step env (.recurse cat depth p s) n .done n [catRecordOf cat depth p s]
  | acquire : ∀ cat s n,
      Step env (.waitSem cat s) (n + 1) (.inFlight cat s) n []
  | fetchOk : ∀ cat s n resp,
      env (cat.shard.getD "") (cat.query.getD "") = .ok resp →
      Step env (.inFlight cat s) n .done (n + 1) (facetRecordsResp resp cat.id s)
  | fetchFail : ∀ cat s n e,
      env (cat.shard.getD "") (cat.query.getD "") = .error e →
      Step env (.inFlight cat s) n .done (n + 1) []
  | gatherStep : ∀ ps i p p' n n' rs,
      ps[i]? = some p → Step env p n p' n' rs →
      Step env (.gather ps) n (.gather (ps.set i p')) n' rs
  | gatherDone : ∀ ps n, (∀ p ∈ ps, p = Proc.done) →
      Step env (.gather ps) n .done n []

/-- Reflexive-transitive closure of Step, accumulating the records emitted
along the way. -/
inductive Steps (env : FetchEnv) :
    Proc → Nat → Proc → Nat → List FlatRecord → Prop where
  | refl : ∀ p n, Steps env p n p n []
  | tail : ∀ p n p' n' rs p'' n'' rs',
      Steps env p n p' n' rs → Step env p' n' p'' n'' rs' →
      Steps env p n p'' n'' (rs ++ rs')

/-- Number of facet fetches currently in flight inside a process. -/
def Proc.inflightCount : Proc → Nat
  | .gather ps => (ps.attach.map fun q => Proc.inflightCount q.1).sum
  | .inFlight _ _ => 1
  | _ => 0
termination_by p => sizeOf p
decreasing_by
  have := List.sizeOf_lt_of_mem q.2
  simp only [Proc.gather.sizeOf_spec]
  omega

/-- Records a process has yet to emit, as a multiset. -/
def Proc.pendingRecs (env : FetchEnv) : Proc → Multiset FlatRecord
  | .recurse cat depth p s => (recurseRecords env cat depth p s : List FlatRecord)
  | .gather ps => (ps.attach.map fun q => Proc.pendingRecs env q.1).sum
  | .waitSem cat s => (fetchItemsRecords env cat s : List FlatRecord)
  | .inFlight cat s => (fetchItemsRecords env cat s : List FlatRecord)
  | .done => 0
termination_by p => sizeOf p
decreasing_by
  have := List.sizeOf_lt_of_mem q.2
  simp only [Proc.gather.sizeOf_spec]
  omega

/-- The initial process of _process_all (lines 110-112): one branch per root
category, seeded with depth 1, no parent, and the root's own name as sheet. -/
def initProc (cats : List Category) : Proc :=
  .gather (cats.map fun cat => .recurse cat 1 none cat.name)

/-- Coercion of a concatenation of lists to a multiset splits into a sum. -/
theorem coe_flatMap_eq_sum_map {α β : Type} (l : List α) (f : α → List β) :
    ((l.flatMap f : List β) : Multiset β)
      = (l.map fun a => ((f a : List β) : Multiset β)).sum := by
  induction l with
  | nil => rfl
  | cons a t ih =>
    simp only [List.flatMap_cons, List.map_cons, List.sum_cons, ← ih,
      ← Multiset.coe_add]

/-- Attached flatMap over the underlying elements is plain flatMap. -/
theorem attach_flatMap_eq {α β : Type} (l : List α) (f : α → List β) :
    (l.attach.flatMap fun x => f x.1) = l.flatMap f := by
  simp

/-- Attached map over the underlying elements is plain map. -/
theorem attach_map_eq {α β : Type} (l : List α) (f : α → β) :
    (l.attach.map fun x => f x.1) = l.map f := by
  simp

/-- Unfolding of the walk at a node whose childs field is a non-empty list:
the node's record followed by the full walks of all children at depth + 1 with
the node as parent and the same sheet group. -/
theorem recurseRecords_children (env : FetchEnv) (cat : Category) (depth : Nat)
    (parentId : Option Int) (sheet : String) {cs : List Category}
    (h : cat.childs = some cs) (hne : cs ≠ []) :
    recurseRecords env cat depth parentId sheet
      = catRecordOf cat depth parentId sheet ::
          cs.flatMap fun sub =>
            recurseRecords env sub (depth + 1) (some cat.id) sheet := by
  rw [recurseRecords]
  have hb : childsNonempty cat.childs = true := by
    rw [h]; simp [childsNonempty, List.isEmpty_eq_false, hne]
  rw [hb]
  simp only [if_true]
  rw [h]
  simp only [childsList]
  congr 1
  exact attach_flatMap_eq cs fun sub => recurseRecords env sub (depth + 1) (some cat.id) sheet

/-- Unfolding of the walk at a leaf with both lookup parameters truthy: the
node's record followed by whatever the facet fetch contributes. -/
theorem recurseRecords_leaf_params (env : FetchEnv) (cat : Category)
    (depth : Nat) (parentId : Option Int) (sheet : String)
    (h : childsNonempty cat.childs = false) (hp : hasParams cat = true) :
    recurseRecords env cat depth parentId sheet
      = catRecordOf cat depth parentId sheet :: fetchItemsRecords env cat sheet := by
  rw [recurseRecords, h, hp]
  simp

/-- Unfolding of the walk at a true leaf without both lookup parameters: only
the node's own record. -/
theorem recurseRecords_leaf_plain (env : FetchEnv) (cat : Category)
    (depth : Nat) (parentId : Option Int) (sheet : String)
    (h : childsNonempty cat.childs = false) (hp : hasParams cat = false) :
    recurseRecords env cat depth parentId sheet
      = [catRecordOf cat depth parentId sheet] := by
  rw [recurseRecords, h, hp]
  simp

/-- Pending records of a gather node: the sum over the branches. -/
theorem pendingRecs_gather (env : FetchEnv) (ps : List Proc) :
    Proc.pendingRecs env (.gather ps) = (ps.map (Proc.pendingRecs env)).sum := by
  rw [Proc.pendingRecs, attach_map_eq]

/-- In-flight count of a gather node: the sum over the branches. -/
theorem inflightCount_gather (ps : List Proc) :
    Proc.inflightCount (.gather ps) = (ps.map Proc.inflightCount).sum := by
  rw [Proc.inflightCount, attach_map_eq]

/-- A failing fetch contributes no records to the walk. -/
theorem fetchItemsRecords_error (env : FetchEnv) (cat : Category)
    (sheet : String) {e : String}
    (h : env (cat.shard.getD "") (cat.query.getD "") = .error e) :
    fetchItemsRecords env cat sheet = [] := by
  simp [fetchItemsRecords, fetchItemsCall, safe_api_call, h, Except.map]

/-- A successful fetch contributes exactly the parsed facet records. -/
theorem fetchItemsRecords_ok (env : FetchEnv) (cat : Category)
    (sheet : String) {resp : RawResponse}
    (h : env (cat.shard.getD "") (cat.query.getD "") = .ok resp) :
    fetchItemsRecords env cat sheet = facetRecordsResp resp cat.id sheet := by
  simp [fetchItemsRecords, fetchItemsCall, safe_api_call, h, Except.map]

/-- Replacing the element at a valid position changes a mapped sum by swapping
that element's contribution. -/
theorem sum_map_set {α β : Type} [AddCommMonoid β] (f : α → β) :
    ∀ (l : List α) (i : Nat) (a a' : α), l[i]? = some a →
      ((l.set i a').map f).sum + f a = (l.map f).sum + f a' := by
  intro l
  induction l with
  | nil => intro i a a' h; simp at h
  | cons x t ih =>
    intro i a a' h
    cases i with
    | zero =>
      simp only [List.getElem?_cons_zero, Option.some.injEq] at h
      subst h
      simp only [List.set_cons_zero, List.map_cons, List.sum_cons]
      abel
    | succ j =>
      simp only [List.getElem?_cons_succ] at h
      simp only [List.set_cons_succ, List.map_cons, List.sum_cons]
      have := ih j a a' h
      rw [add_assoc, this, ← add_assoc]

/-- Pending records of a branch about to run _recurse. -/
theorem pendingRecs_recurse (env : FetchEnv) (cat : Category) (depth : Nat)
    (parentId : Option Int) (sheet : String) :
    Proc.pendingRecs env (.recurse cat depth parentId sheet)
      = ((recurseRecords env cat depth parentId sheet : List FlatRecord) :
          Multiset FlatRecord) := by
  simp [Proc.pendingRecs]

/-- Pending records of a branch waiting on the semaphore. -/
theorem pendingRecs_waitSem (env : FetchEnv) (cat : Category) (sheet : String) :
    Proc.pendingRecs env (.waitSem cat sheet)
      = ((fetchItemsRecords env cat sheet : List FlatRecord) :
          Multiset FlatRecord) := by
  simp [Proc.pendingRecs]

/-- Pending records of a branch whose fetch is in flight. -/
theorem pendingRecs_inFlight (env : FetchEnv) (cat : Category) (sheet : String) :
    Proc.pendingRecs env (.inFlight cat sheet)
      = ((fetchItemsRecords env cat sheet : List FlatRecord) :
          Multiset FlatRecord) := by
  simp [Proc.pendingRecs]

/-- A finished branch has nothing pending. -/
theorem pendingRecs_done (env : FetchEnv) :
    Proc.pendingRecs env .done = 0 := by
  simp [Proc.pendingRecs]

/-- In-flight count of the non-gather, non-inFlight branch states. -/
theorem inflightCount_recurse (cat : Category) (depth : Nat)
    (parentId : Option Int) (sheet : String) :
    Proc.inflightCount (.recurse cat depth parentId sheet) = 0 := by
  simp [Proc.inflightCount]

/-- In-flight count of a branch waiting on the semaphore is zero. -/
theorem inflightCount_waitSem (cat : Category) (sheet : String) :
    Proc.inflightCount (.waitSem cat sheet) = 0 := by
  simp [Proc.inflightCount]

/-- In-flight count of a branch holding the semaphore is one. -/
theorem inflightCount_inFlight (cat : Category) (sheet : String) :
    Proc.inflightCount (.inFlight cat sheet) = 1 := by
  simp [Proc.inflightCount]

/-- In-flight count of a finished branch is zero. -/
theorem inflightCount_done : Proc.inflightCount .done = 0 := by
  simp [Proc.inflightCount]

/-- A list of finished branches has no pending records. -/
theorem pendingRecs_all_done (env : FetchEnv) (ps : List Proc)
    (h : ∀ p ∈ ps, p = Proc.done) :
    (ps.map (Proc.pendingRecs env)).sum = 0 := by
  apply List.sum_eq_zero
  intro x hx
  rcases List.mem_map.1 hx with ⟨p, hp, rfl⟩
  rw [h p hp, pendingRecs_done]

/-- Every step consumes exactly its emitted records from the pending multiset:
the records yet to be emitted before the step are the step's own records plus
the records yet to be emitted afterwards. -/
theorem step_pendingRecs {env : FetchEnv} {p : Proc} {n : Nat} {p' : Proc}
    {n' : Nat} {rs : List FlatRecord} (h : Step env p n p' n' rs) :
    Proc.pendingRecs env p
      = (rs : Multiset FlatRecord) + Proc.pendingRecs env p' := by
  induction h with
  | expand i nm sh q u c cs depth pid s m =>
    have hch : (Category.mk i nm sh q u (some (c :: cs))).childs
        = some (c :: cs) := rfl
    have hid : (Category.mk i nm sh q u (some (c :: cs))).id = i := rfl
    rw [pendingRecs_recurse,
      recurseRecords_children env _ depth pid s hch (by simp),
      pendingRecs_gather, List.map_map]
    simp only [hid]
    rw [← Multiset.cons_coe, coe_flatMap_eq_sum_map]
    have hmap : ((c :: cs).map fun a =>
          ((recurseRecords env a (depth + 1) (some i) s : List FlatRecord) :
            Multiset FlatRecord))
        = (c :: cs).map
            ((Proc.pendingRecs env) ∘ fun sub =>
              Proc.recurse sub (depth + 1) (some i) s) := by
      apply List.map_congr_left
      intro a _
      simp [Function.comp, pendingRecs_recurse]
    rw [← hmap]
    simp [Multiset.singleton_add]
  | toFetch cat depth pid s m hc hp =>
    rw [pendingRecs_recurse, recurseRecords_leaf_params env cat depth pid s hc hp,
      pendingRecs_waitSem, ← Multiset.cons_coe]
    simp [Multiset.singleton_add]
  | toLeaf cat depth pid s m hc hp =>
    rw [pendingRecs_recurse, recurseRecords_leaf_plain env cat depth pid s hc hp,
      pendingRecs_done]
    simp
  | acquire cat s m =>
    rw [pendingRecs_waitSem, pendingRecs_inFlight]
    simp
  | fetchOk cat s m resp hresp =>
    rw [pendingRecs_inFlight, fetchItemsRecords_ok env cat s hresp, pendingRecs_done]
    simp
  | fetchFail cat s m e hresp =>
    rw [pendingRecs_inFlight, fetchItemsRecords_error env cat s hresp, pendingRecs_done]
    simp
  | gatherStep ps i p q m m' rs hget hstep ih =>
    rw [pendingRecs_gather, pendingRecs_gather]
    have hswap := sum_map_set (Proc.pendingRecs env) ps i p q hget
    rw [ih] at hswap
    have : (ps.map (Proc.pendingRecs env)).sum
        = ((ps.set i q).map (Proc.pendingRecs env)).sum
            + (rs : Multiset FlatRecord) := by
      have hcancel := hswap
      rw [← add_assoc] at hcancel
      exact (add_right_cancel hcancel).symm
    rw [this, add_comm]
  | gatherDone ps m hall =>
    rw [pendingRecs_gather, pendingRecs_done, pendingRecs_all_done env ps hall]
    simp

/-- Every step preserves the sum of semaphore slots and in-flight fetches. -/
theorem step_inflight {env : FetchEnv} {p : Proc} {n : Nat} {p' : Proc}
    {n' : Nat} {rs : List FlatRecord} (h : Step env p n p' n' rs) :
    Proc.inflightCount p + n = Proc.inflightCount p' + n' := by
  induction h with
  | expand i nm sh q u c cs depth pid s m =>
    rw [inflightCount_recurse, inflightCount_gather, List.map_map]
    have : ((c :: cs).map (Proc.inflightCount ∘ fun sub =>
        Proc.recurse sub (depth + 1) (some i) s)).sum = 0 := by
      apply List.sum_eq_zero
      intro x hx
      rcases List.mem_map.1 hx with ⟨a, _, rfl⟩
      simp [Function.comp, inflightCount_recurse]
    rw [this]
  | toFetch cat depth pid s m hc hp =>
    rw [inflightCount_recurse, inflightCount_waitSem]
  | toLeaf cat depth pid s m hc hp =>
    rw [inflightCount_recurse, inflightCount_done]
  | acquire cat s m =>
    rw [inflightCount_waitSem, inflightCount_inFlight]
    omega
  | fetchOk cat s m resp hresp =>
    rw [inflightCount_inFlight, inflightCount_done]
    omega
  | fetchFail cat s m e hresp =>
    rw [inflightCount_inFlight, inflightCount_done]
    omega
  | gatherStep ps i p q m m' rs hget hstep ih =>
    rw [inflightCount_gather, inflightCount_gather]
    have hswap := sum_map_set Proc.inflightCount ps i p q hget
    omega
  | gatherDone ps m hall =>
    rw [inflightCount_gather, inflightCount_done]
    have : (ps.map Proc.inflightCount).sum = 0 := by
      apply List.sum_eq_zero
      intro x hx
      rcases List.mem_map.1 hx with ⟨a, ha, rfl⟩
      rw [hall a ha, inflightCount_done]
    rw [this]

/-- Multi-step version of step_pendingRecs: the records a run emits are
exactly the difference between the pending multisets of its endpoints. -/
theorem steps_pendingRecs {env : FetchEnv} {p : Proc} {n : Nat} {p' : Proc}
    {n' : Nat} {rs : List FlatRecord} (h : Steps env p n p' n' rs) :
    Proc.pendingRecs env p
      = (rs : Multiset FlatRecord) + Proc.pendingRecs env p' := by
  induction h with
  | refl => simp
  | tail q m rsa q' m' rs' hs hstep ih =>
    rw [ih, step_pendingRecs hstep, ← add_assoc, Multiset.coe_add]

/-- Multi-step preservation of semaphore slots plus in-flight fetches. -/
theorem steps_inflight {env : FetchEnv} {p : Proc} {n : Nat} {p' : Proc}
    {n' : Nat} {rs : List FlatRecord} (h : Steps env p n p' n' rs) :
    Proc.inflightCount p + n = Proc.inflightCount p' + n' := by
  induction h with
  | refl => rfl
  | tail q m rsa q' m' rs' hs hstep ih =>
    have := step_inflight hstep
    omega

/-- Pending records of the initial process are the sequential denotation. -/
theorem pendingRecs_initProc (env : FetchEnv) (cats : List Category) :
    Proc.pendingRecs env (initProc cats)
      = ((processAllRecords env cats : List FlatRecord) : Multiset FlatRecord) := by
  rw [initProc, pendingRecs_gather, List.map_map, processAllRecords,
    coe_flatMap_eq_sum_map]
  congr 1
  apply List.map_congr_left
  intro cat _
  simp [Function.comp, pendingRecs_recurse]

/-- The initial process has no fetch in flight. -/
theorem inflightCount_initProc (cats : List Category) :
    Proc.inflightCount (initProc cats) = 0 := by
  rw [initProc, inflightCount_gather, List.map_map]
  apply List.sum_eq_zero
  intro x hx
  rcases List.mem_map.1 hx with ⟨a, _, rfl⟩
  simp [Function.comp, inflightCount_recurse]

/-- Any complete run of the walk emits, as a multiset, exactly the sequential
denotation — the set of records is independent of the interleaving. -/
theorem run_records_eq {env : FetchEnv} {cats : List Category} {n0 n' : Nat}
    {rs : List FlatRecord} (h : Steps env (initProc cats) n0 .done n' rs) :
    (rs : Multiset FlatRecord)
      = ((processAllRecords env cats : List FlatRecord) : Multiset FlatRecord) := by
  have hp := steps_pendingRecs h
  rw [pendingRecs_initProc, pendingRecs_done, add_zero] at hp
  exact hp.symm

/-- Along any run from the initial process with semaphore capacity c, the
in-flight count plus the free slots always equals c. -/
theorem steps_inflight_init {env : FetchEnv} {cats : List Category} {c : Nat}
    {p' : Proc} {n' : Nat} {rs : List FlatRecord}
    (h : Steps env (initProc cats) c p' n' rs) :
    Proc.inflightCount p' + n' = c := by
  have := steps_inflight h
  rw [inflightCount_initProc] at this
  omega

/-- The element at the boundary position of an append-cons list. -/
theorem get_append_cons {α : Type} (pre : List α) (x : α) (post : List α) :
    (pre ++ x :: post)[pre.length]? = some x := by
  induction pre with
  | nil => simp
  | cons a t ih => simpa using ih

/-- Setting the boundary position of an append-cons list. -/
theorem set_append_cons {α : Type} (pre : List α) (x y : α) (post : List α) :
    (pre ++ x :: post).set pre.length y = pre ++ y :: post := by
  induction pre with
  | nil => rfl
  | cons a t ih => simp [ih]

/-- A step of one branch lifts to a step of a gather containing it. -/
theorem step_gather_lift {env : FetchEnv} {p : Proc} {n : Nat} {p' : Proc}
    {n' : Nat} {rs : List FlatRecord} (h : Step env p n p' n' rs)
    (pre post : List Proc) :
    Step env (.gather (pre ++ p :: post)) n (.gather (pre ++ p' :: post)) n' rs := by
  have hstep := Step.gatherStep (pre ++ p :: post) pre.length p p' n n' rs
    (get_append_cons pre p post) h
  rwa [set_append_cons pre p p' post] at hstep

/-- A run of one branch lifts to a run of a gather containing it. -/
theorem steps_gather_lift {env : FetchEnv} {p : Proc} {n : Nat} {p' : Proc}
    {n' : Nat} {rs : List FlatRecord} (h : Steps env p n p' n' rs)
    (pre post : List Proc) :
    Steps env (.gather (pre ++ p :: post)) n (.gather (pre ++ p' :: post)) n' rs := by
  induction h with
  | refl => exact Steps.refl _ _
  | tail q m rsa q' m' rs' hs hstep ih =>
    exact Steps.tail _ _ _ _ _ _ _ _ ih (step_gather_lift hstep pre post)

/-- Runs compose. -/
theorem steps_trans {env : FetchEnv} {p : Proc} {n : Nat} {q : Proc} {m : Nat}
    {rs1 : List FlatRecord} {r : Proc} {k : Nat} {rs2 : List FlatRecord}
    (h1 : Steps env p n q m rs1) (h2 : Steps env q m r k rs2) :
    Steps env p n r k (rs1 ++ rs2) := by
  induction h2 with
  | refl => simpa using h1
  | tail c d rsa e f rs' hs hstep ih =>
    have := Steps.tail _ _ _ _ _ _ _ _ ih hstep
    rwa [List.append_assoc] at this

/-- A single step is a run. -/
theorem steps_single {env : FetchEnv} {p : Proc} {n : Nat} {p' : Proc}
    {n' : Nat} {rs : List FlatRecord} (h : Step env p n p' n' rs) :
    Steps env p n p' n' rs := by
  have := Steps.tail p n p n [] p' n' rs (Steps.refl p n) h
  simpa using this

/-- Records a branch will emit, read off its state (used to schedule runs). -/
def procRecsOf (env : FetchEnv) : Proc → List FlatRecord
  | .recurse cat depth pid s => recurseRecords env cat depth pid s
  | _ => []

/-- Scheduling the branches of a gather one after another: if every branch can
run to completion from any positive semaphore state without changing it, the
gather runs all of them, emitting their records in order. -/
theorem run_gather {env : FetchEnv} :
    ∀ (ps : List Proc) (pre : List Proc) (n : Nat), 0 < n →
      (∀ p ∈ ps, ∀ m, 0 < m → Steps env p m .done m (procRecsOf env p)) →
      Steps env (.gather (pre ++ ps)) n
        (.gather (pre ++ ps.map fun _ => Proc.done)) n
        (ps.flatMap (procRecsOf env)) := by
  intro ps
  induction ps with
  | nil => intro pre n hn hrun; simpa using Steps.refl _ _
  | cons p ps ih =>
    intro pre n hn hrun
    have h1 : Steps env (.gather (pre ++ p :: ps)) n
        (.gather (pre ++ Proc.done :: ps)) n (procRecsOf env p) :=
      steps_gather_lift (hrun p (by simp) n hn) pre ps
    have h2 := ih (pre ++ [Proc.done]) n hn fun c hc => hrun c (by simp [hc])
    rw [List.append_assoc] at h2
    simp only [List.singleton_append] at h2
    have h3 := steps_trans h1 h2
    simpa using h3

/-- A child is structurally smaller than its parent category. -/
theorem sizeOf_lt_of_mem_childs {cat : Category} {cs : List Category}
    (h : cat.childs = some cs) {c : Category} (hm : c ∈ cs) :
    sizeOf c < sizeOf cat := by
  cases cat with
  | mk i nm sh q u ch =>
    simp only [Category.childs] at h
    subst h
    have := List.sizeOf_lt_of_mem hm
    simp only [Category.mk.sizeOf_spec, Option.some.sizeOf_spec]
    omega

/-- Membership in the iterated child list exposes the childs field. -/
theorem exists_of_mem_childsList {o : Option (List Category)} {x : Category}
    (h : x ∈ childsList o) : ∃ l, o = some l ∧ x ∈ l := by
  cases o with
  | none => simp [childsList] at h
  | some l => exact ⟨l, rfl, by simpa [childsList] using h⟩

/-- Sequential schedule of one branch: from any positive semaphore state, the
branch for a node runs to completion, restores the semaphore, and emits
exactly the sequential denotation (auxiliary strong induction on size). -/
theorem seq_run_aux (env : FetchEnv) :
    ∀ (k : Nat) (cat : Category), sizeOf cat ≤ k →
      ∀ (depth : Nat) (pid : Option Int) (s : String) (n : Nat), 0 < n →
      Steps env (.recurse cat depth pid s) n .done n
        (recurseRecords env cat depth pid s) := by
  intro k
  induction k with
  | zero =>
    intro cat hle
    exfalso
    cases cat
    simp [Category.mk.sizeOf_spec] at hle
  | succ k ih =>
    intro cat hle depth pid s n hn
    by_cases hch : childsNonempty cat.childs = true
    · obtain ⟨i, nm, sh, qq, u, ch⟩ := cat
      have hchs : ∃ c cs, ch = some (c :: cs) := by
        cases ch with
        | none => simp [childsNonempty, Category.childs] at hch
        | some l =>
          cases l with
          | nil => simp [childsNonempty, Category.childs] at hch
          | cons c cs => exact ⟨c, cs, rfl⟩
      obtain ⟨c, cs, rfl⟩ := hchs
      have hstep1 : Step env
          (.recurse (Category.mk i nm sh qq u (some (c :: cs))) depth pid s) n
          (.gather ((c :: cs).map fun sub => .recurse sub (depth + 1) (some i) s)) n
          [catRecordOf (Category.mk i nm sh qq u (some (c :: cs))) depth pid s] :=
        Step.expand i nm sh qq u c cs depth pid s n
      have hrun : ∀ p ∈ (c :: cs).map fun sub =>
            Proc.recurse sub (depth + 1) (some i) s,
          ∀ m, 0 < m → Steps env p m .done m (procRecsOf env p) := by
        intro p hp m hm
        rcases List.mem_map.1 hp with ⟨sub, hsub, rfl⟩
        have hsz : sizeOf sub ≤ k := by
          have := sizeOf_lt_of_mem_childs
            (show (Category.mk i nm sh qq u (some (c :: cs))).childs
              = some (c :: cs) from rfl) hsub
          omega
        simpa [procRecsOf] using ih sub hsz (depth + 1) (some i) s m hm
      have hmid := run_gather
        ((c :: cs).map fun sub => Proc.recurse sub (depth + 1) (some i) s)
        [] n hn hrun
      simp only [List.nil_append] at hmid
      have hstep3 : Step env
          (.gather (((c :: cs).map fun sub =>
            Proc.recurse sub (depth + 1) (some i) s).map fun _ => Proc.done)) n
          .done n [] := by
        apply Step.gatherDone
        intro p hp
        rcases List.mem_map.1 hp with ⟨a, _, rfl⟩
        rfl
      have hall := steps_trans (steps_single hstep1) (steps_trans hmid (steps_single hstep3))
      have hrecs : recurseRecords env (Category.mk i nm sh qq u (some (c :: cs))) depth pid s
          = [catRecordOf (Category.mk i nm sh qq u (some (c :: cs))) depth pid s]
            ++ ((((c :: cs).map fun sub => Proc.recurse sub (depth + 1) (some i) s).flatMap
              (procRecsOf env)) ++ []) := by
        rw [recurseRecords_children env _ depth pid s
          (show (Category.mk i nm sh qq u (some (c :: cs))).childs
            = some (c :: cs) from rfl) (by simp)]
        simp only [List.append_nil, List.singleton_append, List.flatMap_map,
          procRecsOf, Category.id]
      rw [hrecs]
      exact hall
    · have hcf : childsNonempty cat.childs = false := by
        simpa using hch
      by_cases hp : hasParams cat = true
      · obtain ⟨m, rfl⟩ : ∃ m, n = m + 1 := ⟨n - 1, by omega⟩
        have hstep1 : Step env (.recurse cat depth pid s) (m + 1)
            (.waitSem cat s) (m + 1) [catRecordOf cat depth pid s] :=
          Step.toFetch cat depth pid s (m + 1) hcf hp
        have hstep2 : Step env (.waitSem cat s) (m + 1) (.inFlight cat s) m [] :=
          Step.acquire cat s m
        have hstep3 : Steps env (.inFlight cat s) m .done (m + 1)
            (fetchItemsRecords env cat s) := by
          cases henv : env (cat.shard.getD "") (cat.query.getD "") with
          | ok resp =>
            rw [fetchItemsRecords_ok env cat s henv]
            exact steps_single (Step.fetchOk cat s m resp henv)
          | error e =>
            rw [fetchItemsRecords_error env cat s henv]
            exact steps_single (Step.fetchFail cat s m e henv)
        have hall := steps_trans (steps_single hstep1)
          (steps_trans (steps_single hstep2) hstep3)
        rw [recurseRecords_leaf_params env cat depth pid s hcf hp]
        simpa using hall
      · have hpf : hasParams cat = false := by simpa using hp
        rw [recurseRecords_leaf_plain env cat depth pid s hcf hpf]
        exact steps_single (Step.toLeaf cat depth pid s n hcf hpf)

/-- Sequential schedule of one branch, stated with the size bound discharged. -/
theorem seq_run (env : FetchEnv) (cat : Category) (depth : Nat)
    (pid : Option Int) (s : String) (n : Nat) (hn : 0 < n) :
    Steps env (.recurse cat depth pid s) n .done n
      (recurseRecords env cat depth pid s) :=
  seq_run_aux env (sizeOf cat) cat le_rfl depth pid s n hn

/-- The whole walk has a complete run: the sequential schedule runs the
initial process to done with the semaphore restored to its capacity 30,
emitting the sequential denotation. -/
theorem run_all (env : FetchEnv) (cats : List Category) :
    Steps env (initProc cats) 30 .done 30 (processAllRecords env cats) := by
  have hrun : ∀ p ∈ cats.map fun cat => Proc.recurse cat 1 none cat.name,
      ∀ m, 0 < m → Steps env p m .done m (procRecsOf env p) := by
    intro p hp m hm
    rcases List.mem_map.1 hp with ⟨cat, _, rfl⟩
    simpa [procRecsOf] using seq_run env cat 1 none cat.name m hm
  have hmid := run_gather (cats.map fun cat => Proc.recurse cat 1 none cat.name)
    [] 30 (by omega) hrun
  simp only [List.nil_append] at hmid
  have hstep3 : Step env
      (.gather ((cats.map fun cat => Proc.recurse cat 1 none cat.name).map
        fun _ => Proc.done)) 30 .done 30 [] := by
    apply Step.gatherDone
    intro p hp
    rcases List.mem_map.1 hp with ⟨a, _, rfl⟩
    rfl
  have hall := steps_trans hmid (steps_single hstep3)
  have hrecs : processAllRecords env cats
      = ((cats.map fun cat => Proc.recurse cat 1 none cat.name).flatMap
          (procRecsOf env)) ++ [] := by
    rw [processAllRecords]
    simp only [List.append_nil, List.flatMap_map]
    rfl
  rw [initProc, hrecs]
  exact hall

/-- The record the specification's completeness property promises for a node
whose chain of ancestors (nearest first) is anc: depth is 1 plus the number of
ancestors, the parent id is the nearest ancestor's id or absent for a root. -/
def specNodeRecord (sheet : String) (cat : Category) (anc : List Category) :
    FlatRecord :=
  ⟨sheet, cat.id, cat.name, 1 + anc.length, anc.head?.map Category.id⟩

/-- One record per node of a subtree, as promised by the completeness
property, indexed by the ancestor chain of the subtree root. -/
def specNodeRecords (sheet : String) : Category → List Category →
    Multiset FlatRecord
  | cat, anc =>
    specNodeRecord sheet cat anc ::ₘ
      ((childsList cat.childs).attach.map fun sub =>
        specNodeRecords sheet sub.1 (cat :: anc)).sum
termination_by cat => sizeOf cat
decreasing_by
  obtain ⟨l, hcase, hmem⟩ := exists_of_mem_childsList sub.2
  exact sizeOf_lt_of_mem_childs hcase hmem

/-- The facet records contributed below a subtree: nothing at internal nodes
(they never fetch), the facet fetch's outcome at a leaf with both parameters,
nothing at other leaves. -/
def specFacetRecords (env : FetchEnv) (sheet : String) : Category →
    Multiset FlatRecord
  | cat =>
    if childsNonempty cat.childs then
      ((childsList cat.childs).attach.map fun sub =>
        specFacetRecords env sheet sub.1).sum
    else if hasParams cat then
      ((fetchItemsRecords env cat sheet : List FlatRecord) : Multiset FlatRecord)
    else 0
termination_by cat => sizeOf cat
decreasing_by
  obtain ⟨l, hcase, hmem⟩ := exists_of_mem_childsList sub.2
  exact sizeOf_lt_of_mem_childs hcase hmem

/-- Unfolding of specNodeRecords without the attach. -/
theorem specNodeRecords_eq (sheet : String) (cat : Category)
    (anc : List Category) :
    specNodeRecords sheet cat anc
      = specNodeRecord sheet cat anc ::ₘ
          ((childsList cat.childs).map fun sub =>
            specNodeRecords sheet sub (cat :: anc)).sum := by
  rw [specNodeRecords]
  congr 1
  congr 1
  exact attach_map_eq (childsList cat.childs) fun sub =>
    specNodeRecords sheet sub (cat :: anc)

/-- Unfolding of specFacetRecords at an internal node. -/
theorem specFacetRecords_children (env : FetchEnv) (sheet : String)
    (cat : Category) (h : childsNonempty cat.childs = true) :
    specFacetRecords env sheet cat
      = ((childsList cat.childs).map fun sub =>
          specFacetRecords env sheet sub).sum := by
  rw [specFacetRecords, h, attach_map_eq]
  simp

/-- Unfolding of specFacetRecords at a leaf with both parameters. -/
theorem specFacetRecords_leaf_params (env : FetchEnv) (sheet : String)
    (cat : Category) (h : childsNonempty cat.childs = false)
    (hp : hasParams cat = true) :
    specFacetRecords env sheet cat
      = ((fetchItemsRecords env cat sheet : List FlatRecord) :
          Multiset FlatRecord) := by
  rw [specFacetRecords, h, hp]
  simp

/-- Unfolding of specFacetRecords at a plain leaf. -/
theorem specFacetRecords_leaf_plain (env : FetchEnv) (sheet : String)
    (cat : Category) (h : childsNonempty cat.childs = false)
    (hp : hasParams cat = false) :
    specFacetRecords env sheet cat = 0 := by
  rw [specFacetRecords, h, hp]
  simp

/-- Mapped sums distribute over pointwise sums. -/
theorem sum_map_add {α β : Type} [AddCommMonoid β] (l : List α) (f g : α → β) :
    (l.map fun x => f x + g x).sum = (l.map f).sum + (l.map g).sum := by
  induction l with
  | nil => simp
  | cons a t ih =>
    simp only [List.map_cons, List.sum_cons, ih]
    abel

/-- Decomposition of the walk of one subtree: its records are exactly one
record per node as promised by the completeness property, plus the facet
records of its leaves (auxiliary strong induction on size). -/
theorem recurse_decomp_aux (env : FetchEnv) (sheet : String) :
    ∀ (k : Nat) (cat : Category), sizeOf cat ≤ k → ∀ (anc : List Category),
      ((recurseRecords env cat (1 + anc.length) (anc.head?.map Category.id)
          sheet : List FlatRecord) : Multiset FlatRecord)
        = specNodeRecords sheet cat anc + specFacetRecords env sheet cat := by
  intro k
  induction k with
  | zero =>
    intro cat hle
    exfalso
    cases cat
    simp [Category.mk.sizeOf_spec] at hle
  | succ k ih =>
    intro cat hle anc
    by_cases hch : childsNonempty cat.childs = true
    · have hchs : ∃ c cs, cat.childs = some (c :: cs) := by
        cases hcc : cat.childs with
        | none => rw [hcc] at hch; simp [childsNonempty] at hch
        | some l =>
          cases l with
          | nil => rw [hcc] at hch; simp [childsNonempty] at hch
          | cons c cs => exact ⟨c, cs, rfl⟩
      obtain ⟨c, cs, hcc⟩ := hchs
      rw [recurseRecords_children env cat _ _ sheet hcc (by simp),
        ← Multiset.cons_coe, coe_flatMap_eq_sum_map,
        specNodeRecords_eq, specFacetRecords_children env sheet cat hch, hcc]
      simp only [childsList]
      have hmap : ((c :: cs).map fun a =>
            ((recurseRecords env a (1 + anc.length + 1) (some cat.id) sheet :
              List FlatRecord) : Multiset FlatRecord))
          = (c :: cs).map fun a =>
              specNodeRecords sheet a (cat :: anc)
                + specFacetRecords env sheet a := by
        apply List.map_congr_left
        intro a ha
        have hsz : sizeOf a ≤ k := by
          have := sizeOf_lt_of_mem_childs hcc ha
          omega
        have := ih a hsz (cat :: anc)
        simpa [specNodeRecord, Nat.add_comm, Nat.add_assoc,
          Nat.add_left_comm] using this
      rw [hmap, sum_map_add]
      have hrec : specNodeRecord sheet cat anc
          = catRecordOf cat (1 + anc.length) (anc.head?.map Category.id) sheet := rfl
      rw [hrec, Multiset.cons_add]
    · have hcf : childsNonempty cat.childs = false := by simpa using hch
      by_cases hp : hasParams cat = true
      · rw [recurseRecords_leaf_params env cat _ _ sheet hcf hp,
          ← Multiset.cons_coe, specNodeRecords_eq,
          specFacetRecords_leaf_params env sheet cat hcf hp]
        have hnil : childsList cat.childs = [] := by
          cases hcc : cat.childs with
          | none => simp [childsList]
          | some l =>
            cases l with
            | nil => simp [childsList]
            | cons c cs => rw [hcc] at hcf; simp [childsNonempty] at hcf
        rw [hnil]
        simp [specNodeRecord, catRecordOf, Multiset.cons_add]
      · have hpf : hasParams cat = false := by simpa using hp
        rw [recurseRecords_leaf_plain env cat _ _ sheet hcf hpf,
          specNodeRecords_eq, specFacetRecords_leaf_plain env sheet cat hcf hpf]
        have hnil : childsList cat.childs = [] := by
          cases hcc : cat.childs with
          | none => simp [childsList]
          | some l =>
            cases l with
            | nil => simp [childsList]
            | cons c cs => rw [hcc] at hcf; simp [childsNonempty] at hcf
        rw [hnil]
        simp [specNodeRecord, catRecordOf]

/-- The sequential denotation of the whole walk decomposes into one record
per node plus the facet records, per root. -/
theorem processAll_decomp (env : FetchEnv) (cats : List Category) :
    ((processAllRecords env cats : List FlatRecord) : Multiset FlatRecord)
      = (cats.map fun root =>
          specNodeRecords root.name root []
            + specFacetRecords env root.name root).sum := by
  rw [processAllRecords, coe_flatMap_eq_sum_map]
  congr 1
  apply List.map_congr_left
  intro root _
  have := recurse_decomp_aux env root.name (sizeOf root) root le_rfl []
  simpa using this

/-- Shape of any record produced from one filter group: it carries the given
sheet, depth 99, the owning category as parent, and its group passed both the
name check and the items-is-a-list check. -/
theorem facetGroupRecords_mem {g : RawGroup} {catId : Int} {sheet : String}
    {r : FlatRecord} (h : r ∈ facetGroupRecords g catId sheet) :
    r.sheetGroup = sheet ∧ r.depth = 99 ∧ r.parentId = some catId
      ∧ g.name = some "Категория" ∧ ∃ its, g.items = some its := by
  unfold facetGroupRecords at h
  cases hit : g.items with
  | none => rw [hit] at h; simp at h
  | some its =>
    rw [hit] at h
    simp only [List.mem_ite_nil_right, List.mem_map] at h
    obtain ⟨hname, it, hmem, rfl⟩ := h
    exact ⟨rfl, rfl, rfl, hname, its, rfl⟩

/-- Shape of any record a leaf's facet fetch contributes. -/
theorem fetchItemsRecords_mem {env : FetchEnv} {cat : Category}
    {sheet : String} {r : FlatRecord} (h : r ∈ fetchItemsRecords env cat sheet) :
    r.sheetGroup = sheet ∧ r.depth = 99 ∧ r.parentId = some cat.id := by
  cases henv : env (cat.shard.getD "") (cat.query.getD "") with
  | error e => rw [fetchItemsRecords_error env cat sheet henv] at h; simp at h
  | ok resp =>
    rw [fetchItemsRecords_ok env cat sheet henv] at h
    unfold facetRecordsResp at h
    rcases List.mem_flatMap.1 h with ⟨g, _, hr⟩
    have hm := facetGroupRecords_mem hr
    exact ⟨hm.1, hm.2.1, hm.2.2.1⟩

/-- Every record of a subtree walk carries the sheet the walk was seeded with
(auxiliary strong induction on size). -/
theorem sheetGroup_recurse_aux (env : FetchEnv) (sheet : String) :
    ∀ (k : Nat) (cat : Category), sizeOf cat ≤ k →
      ∀ (d : Nat) (pid : Option Int) (r : FlatRecord),
        r ∈ recurseRecords env cat d pid sheet → r.sheetGroup = sheet := by
  intro k
  induction k with
  | zero =>
    intro cat hle
    exfalso
    cases cat
    simp [Category.mk.sizeOf_spec] at hle
  | succ k ih =>
    intro cat hle d pid r hr
    by_cases hch : childsNonempty cat.childs = true
    · have hchs : ∃ c cs, cat.childs = some (c :: cs) := by
        cases hcc : cat.childs with
        | none => rw [hcc] at hch; simp [childsNonempty] at hch
        | some l =>
          cases l with
          | nil => rw [hcc] at hch; simp [childsNonempty] at hch
          | cons c cs => exact ⟨c, cs, rfl⟩
      obtain ⟨c, cs, hcc⟩ := hchs
      rw [recurseRecords_children env cat d pid sheet hcc (by simp)] at hr
      rcases List.mem_cons.1 hr with rfl | hr'
      · rfl
      · rcases List.mem_flatMap.1 hr' with ⟨sub, hsub, hrsub⟩
        have hsz : sizeOf sub ≤ k := by
          have := sizeOf_lt_of_mem_childs hcc hsub
          omega
        exact ih sub hsz (d + 1) (some cat.id) r hrsub
    · have hcf : childsNonempty cat.childs = false := by simpa using hch
      by_cases hp : hasParams cat = true
      · rw [recurseRecords_leaf_params env cat d pid sheet hcf hp] at hr
        rcases List.mem_cons.1 hr with rfl | hr'
        · rfl
        · exact (fetchItemsRecords_mem hr').1
      · have hpf : hasParams cat = false := by simpa using hp
        rw [recurseRecords_leaf_plain env cat d pid sheet hcf hpf] at hr
        rcases List.mem_singleton.1 hr with rfl
        rfl

/-- The facet parse written as a filter: exactly the groups passing the name
and items checks contribute, one record per item. -/
theorem facetRecordsResp_eq_filter (resp : RawResponse) (catId : Int)
    (sheet : String) :
    facetRecordsResp resp catId sheet
      = (resp.filtersOf.filter fun g =>
          decide (g.name = some "Категория") && !g.items.isNone).flatMap
          fun g => (g.items.getD []).map fun it =>
            (⟨sheet, it.id.getD 0, it.name.getD "Unnamed", 99, some catId⟩ :
              FlatRecord) := by
  rw [facetRecordsResp]
  induction resp.filtersOf with
  | nil => rfl
  | cons g gs ih =>
    rw [List.flatMap_cons, List.filter_cons, ih]
    cases hit : g.items with
    | none => simp [facetGroupRecords, hit]
    | some its =>
      by_cases hname : g.name = some "Категория"
      · simp [facetGroupRecords, hit, hname]
      · simp [facetGroupRecords, hit, hname]

/-- Sample secondary-endpoint response: one group named "Категория" holding a
single item (the spec's scenario). -/
def sampleResp : RawResponse :=
  ⟨some ⟨some [⟨some "Категория", some [⟨some 10, some "F1"⟩]⟩]⟩⟩

/-- Sample environment: the fetch succeeds for shard s1 with query q1 and
fails everywhere else. -/
def sampleEnv : FetchEnv := fun sh q =>
  if sh == "s1" && q == "q1" then .ok sampleResp else .error "boom"

/-- Environment in which every facet fetch fails. -/
def failEnv : FetchEnv := fun _ _ => .error "boom"

/-- Sample leaf category without lookup parameters. -/
def childA1 : Category := .mk 2 "A1" none none none none

/-- Sample internal category with one child. -/
def nodeA : Category := .mk 1 "A" none none none (some [childA1])

/-- Sample leaf category with both lookup parameters. -/
def leafB : Category := .mk 3 "B" (some "s1") (some "q1") none none

/-- Sample root forest (the spec's scenario). -/
def sampleForest : List Category := [nodeA, leafB]

/-- A response whose JSON has no data key. -/
def emptyResp : RawResponse := ⟨none⟩

/-- Environment always returning the data-less response. -/
def okEmptyEnv : FetchEnv := fun _ _ => .ok emptyResp

/-- A group with the right name whose items field is not a list. -/
def itemlessGroup : RawGroup := ⟨some "Категория", none⟩

/-- A childless category whose shard is present but empty. -/
def emptyShardCat : Category := .mk 5 "E" (some "") (some "q") none none

/-- C1: for every forest and every complete run of the concurrent walk, the
emitted records are, as a multiset, exactly one record per node — with depth
equal to 1 plus the number of its ancestors in the forest, and parentId equal
to the parent's id or absent for a root — plus the facet records of the
leaves; quantifying over all traces of the step semantics makes this hold
regardless of how concurrent branches interleave. -/
theorem C1_completeness {env : FetchEnv} {cats : List Category} {nFin : Nat}
    {rs : List FlatRecord}
    (h : Steps env (initProc cats) 30 .done nFin rs) :
    (rs : Multiset FlatRecord)
      = (cats.map fun root =>
          specNodeRecords root.name root []
            + specFacetRecords env root.name root).sum := by
  rw [run_records_eq h, processAll_decomp]

/-- Witness for C1: a concrete complete run over the sample forest. -/
theorem C1_completeness_witness :
    ((processAllRecords sampleEnv sampleForest : List FlatRecord) :
      Multiset FlatRecord)
      = (sampleForest.map fun root =>
          specNodeRecords root.name root []
            + specFacetRecords sampleEnv root.name root).sum :=
  C1_completeness (run_all sampleEnv sampleForest)

/-- C2: when the facet fetch fails for one leaf, the failure is caught at the
call site by safe_api_call and reported as a diagnostic, the leaf contributes
zero facet records but still its own record, and any complete run still emits
every node's record and every other leaf's facet records — the failure never
cancels sibling or cousin branches. -/
theorem C2_failure_isolation {env : FetchEnv} {e : String} {L : Category}
    {sheet : String} {cats : List Category} {nFin : Nat} {rs : List FlatRecord}
    {d : Nat} {pid : Option Int}
    (hleaf : childsNonempty L.childs = false) (hpar : hasParams L = true)
    (hfail : env (L.shard.getD "") (L.query.getD "") = .error e)
    (hrun : Steps env (initProc cats) 30 .done nFin rs) :
    fetchItemsCall env L sheet = (none, ["Error in _fetch_items: " ++ e])
    ∧ fetchItemsRecords env L sheet = []
    ∧ recurseRecords env L d pid sheet = [catRecordOf L d pid sheet]
    ∧ (rs : Multiset FlatRecord)
        = (cats.map fun root =>
            specNodeRecords root.name root []
              + specFacetRecords env root.name root).sum := by
  refine ⟨?_, ?_, ?_, ?_⟩
  · simp [fetchItemsCall, safe_api_call, hfail, Except.map]
  · exact fetchItemsRecords_error env L sheet hfail
  · rw [recurseRecords_leaf_params env L d pid sheet hleaf hpar,
      fetchItemsRecords_error env L sheet hfail]
  · rw [run_records_eq hrun, processAll_decomp]

/-- Witness for C2: every fetch fails, leaf B still contributes its record
and the walk completes over the sample forest. -/
theorem C2_failure_isolation_witness :
    fetchItemsCall failEnv leafB "B" = (none, ["Error in _fetch_items: " ++ "boom"])
    ∧ fetchItemsRecords failEnv leafB "B" = []
    ∧ recurseRecords failEnv leafB 1 none "B" = [catRecordOf leafB 1 none "B"]
    ∧ ((processAllRecords failEnv sampleForest : List FlatRecord) :
        Multiset FlatRecord)
        = (sampleForest.map fun root =>
            specNodeRecords root.name root []
              + specFacetRecords failEnv root.name root).sum :=
  C2_failure_isolation rfl rfl rfl (run_all failEnv sampleForest)

/-- C3: along every run of the walk, never more than 30 facet fetches are in
flight — in-flight count plus free semaphore slots is invariantly the
capacity 30 — and the semaphore is acquired before entering the in-flight
state and released on every exit from it, whether the fetch succeeds or
fails. -/
theorem C3_semaphore_bound {env : FetchEnv} {cats : List Category} {p' : Proc}
    {n' : Nat} {rs : List FlatRecord}
    (h : Steps env (initProc cats) 30 p' n' rs) :
    Proc.inflightCount p' ≤ 30 ∧ Proc.inflightCount p' + n' = 30
    ∧ (∀ cat s m q m' rs', Step env (.waitSem cat s) m q m' rs' →
        0 < m ∧ m' = m - 1 ∧ q = .inFlight cat s)
    ∧ (∀ cat s m q m' rs', Step env (.inFlight cat s) m q m' rs' →
        m' = m + 1 ∧ q = .done) := by
  have hinv := steps_inflight_init h
  refine ⟨by omega, hinv, ?_, ?_⟩
  · intro cat s m q m' rs' hstep
    cases hstep with
    | acquire k => exact ⟨by omega, by omega, rfl⟩
  · intro cat s m q m' rs' hstep
    cases hstep with
    | fetchOk resp hresp => exact ⟨rfl, rfl⟩
    | fetchFail e hresp => exact ⟨rfl, rfl⟩

/-- Witness for C3: instantiating the bound at the end of a concrete complete
run. -/
theorem C3_semaphore_bound_witness :
    Proc.inflightCount Proc.done ≤ 30
      ∧ Proc.inflightCount Proc.done + 30 = 30 :=
  ⟨(C3_semaphore_bound (run_all sampleEnv sampleForest)).1,
   (C3_semaphore_bound (run_all sampleEnv sampleForest)).2.1⟩

/-- C4: for a leaf with both lookup parameters and a successful fetch, the
walk emits, beyond the leaf's own record, one record per item of exactly the
groups whose name equals the fixed label "Категория" (all other groups are
ignored), each with depth pinned to 99 regardless of the leaf's true depth,
parentId the owning leaf's id, name defaulting to "Unnamed" and id defaulting
to 0 when absent. -/
theorem C4_facet_shape {env : FetchEnv} {cat : Category} {resp : RawResponse}
    {d : Nat} {pid : Option Int} {sheet : String}
    (hleaf : childsNonempty cat.childs = false) (hpar : hasParams cat = true)
    (hok : env (cat.shard.getD "") (cat.query.getD "") = .ok resp) :
    recurseRecords env cat d pid sheet
      = catRecordOf cat d pid sheet :: facetRecordsResp resp cat.id sheet
    ∧ facetRecordsResp resp cat.id sheet
        = (resp.filtersOf.filter fun g =>
            decide (g.name = some "Категория") && !g.items.isNone).flatMap
            (fun g => (g.items.getD []).map fun it =>
              (⟨sheet, it.id.getD 0, it.name.getD "Unnamed", 99, some cat.id⟩ :
                FlatRecord))
    ∧ ∀ r ∈ facetRecordsResp resp cat.id sheet,
        r.depth = 99 ∧ r.parentId = some cat.id := by
  refine ⟨?_, facetRecordsResp_eq_filter resp cat.id sheet, ?_⟩
  · rw [recurseRecords_leaf_params env cat d pid sheet hleaf hpar,
      fetchItemsRecords_ok env cat sheet hok]
  · intro r hr
    unfold facetRecordsResp at hr
    rcases List.mem_flatMap.1 hr with ⟨g, _, hrg⟩
    have hm := facetGroupRecords_mem hrg
    exact ⟨hm.2.1, hm.2.2.1⟩

/-- Witness for C4 at the sample leaf and sample response. -/
theorem C4_facet_shape_witness :
    recurseRecords sampleEnv leafB 1 none "B"
      = catRecordOf leafB 1 none "B" :: facetRecordsResp sampleResp leafB.id "B" :=
  (@C4_facet_shape sampleEnv leafB sampleResp 1 none "B" rfl rfl rfl).1

/-- C5: in every complete run, the emitted multiset splits per root of the
forest, and every record of a root's subtree — node records and facet records
alike — carries that top-level root's name as its sheetGroup, exactly as
seeded by the top-level call; the group is never an intermediate ancestor's
name. -/
theorem C5_sheet_group {env : FetchEnv} {cats : List Category} {nFin : Nat}
    {rs : List FlatRecord}
    (h : Steps env (initProc cats) 30 .done nFin rs) :
    (rs : Multiset FlatRecord)
      = (cats.map fun root =>
          ((recurseRecords env root 1 none root.name : List FlatRecord) :
            Multiset FlatRecord)).sum
    ∧ ∀ root ∈ cats, ∀ r ∈ recurseRecords env root 1 none root.name,
        r.sheetGroup = root.name := by
  constructor
  · rw [run_records_eq h, processAllRecords, coe_flatMap_eq_sum_map]
  · intro root _ r hr
    exact sheetGroup_recurse_aux env root.name (sizeOf root) root le_rfl 1 none r hr

/-- Witness for C5: the per-root split of a concrete complete run. -/
theorem C5_sheet_group_witness :
    ((processAllRecords sampleEnv sampleForest : List FlatRecord) :
      Multiset FlatRecord)
      = (sampleForest.map fun root =>
          ((recurseRecords sampleEnv root 1 none root.name : List FlatRecord) :
            Multiset FlatRecord)).sum :=
  (C5_sheet_group (run_all sampleEnv sampleForest)).1

/-- C6: per-node dispatch is exclusive and exhaustive — a step of a node
branch emits exactly the node's own record and leaves the semaphore
untouched, and it either (a) expands a non-empty children list into one
branch per child at depth + 1 with the node's id as parent and the same
sheet, with no facet fetch, or (b) moves to the semaphore wait when childless
with both parameters truthy, or (c) finishes immediately. -/
theorem C6_dispatch (env : FetchEnv) (cat : Category) (d : Nat)
    (pid : Option Int) (s : String) (n : Nat) (q : Proc) (n' : Nat)
    (rs : List FlatRecord) :
    Step env (.recurse cat d pid s) n q n' rs
      ↔ n' = n ∧ rs = [catRecordOf cat d pid s]
          ∧ ((∃ c cs, cat.childs = some (c :: cs)
                ∧ q = .gather ((c :: cs).map fun sub =>
                    Proc.recurse sub (d + 1) (some cat.id) s))
            ∨ (childsNonempty cat.childs = false ∧ hasParams cat = true
                ∧ q = .waitSem cat s)
            ∨ (childsNonempty cat.childs = false ∧ hasParams cat = false
                ∧ q = .done)) := by
  constructor
  · intro h
    cases h with
    | expand i nm sh qq u c cs =>
      exact ⟨rfl, rfl, Or.inl ⟨c, cs, rfl, rfl⟩⟩
    | toFetch _ _ _ _ _ hc hp => exact ⟨rfl, rfl, Or.inr (Or.inl ⟨hc, hp, rfl⟩)⟩
    | toLeaf _ _ _ _ _ hc hp => exact ⟨rfl, rfl, Or.inr (Or.inr ⟨hc, hp, rfl⟩)⟩
  · rintro ⟨rfl, rfl, hcase⟩
    rcases hcase with ⟨c, cs, hch, rfl⟩ | ⟨hc, hp, rfl⟩ | ⟨hc, hp, rfl⟩
    · obtain ⟨i, nm, sh, qq, u, ch⟩ := cat
      simp only [Category.childs] at hch
      subst hch
      exact Step.expand i nm sh qq u c cs d pid s _
    · exact Step.toFetch cat d pid s _ hc hp
    · exact Step.toLeaf cat d pid s _ hc hp

/-- C7: when the root fetch fails, the walk produces no records at all, yet
the run completes cleanly — the Excel sink is still finalized — and the
failure is reported as a diagnostic. -/
theorem C7_root_failure (e : String) (env : FetchEnv) :
    scrapeModel (.error e) env
      = ([], true, ["Error in _fetch_main_menu: " ++ e]) := rfl

/-- C8: for a fixed forest and fixed remote responses, any two complete runs
of the walk emit the same multiset of records — the interleaving of
concurrent branches can change only the order, never which records are
produced. -/
theorem C8_schedule_independence {env : FetchEnv} {cats : List Category}
    {n1 n2 : Nat} {rs1 rs2 : List FlatRecord}
    (h1 : Steps env (initProc cats) 30 .done n1 rs1)
    (h2 : Steps env (initProc cats) 30 .done n2 rs2) :
    (rs1 : Multiset FlatRecord) = (rs2 : Multiset FlatRecord) := by
  rw [run_records_eq h1, run_records_eq h2]

/-- Witness for C8 with two concrete complete runs. -/
theorem C8_schedule_independence_witness :
    ((processAllRecords sampleEnv sampleForest : List FlatRecord) :
      Multiset FlatRecord)
      = ((processAllRecords sampleEnv sampleForest : List FlatRecord) :
          Multiset FlatRecord) :=
  C8_schedule_independence (run_all sampleEnv sampleForest)
    (run_all sampleEnv sampleForest)

/-- C9: a successful fetch whose response has absent or malformed group data —
no data key, no filters key, no group named "Категория", or a matching group
whose items is not a list — yields an empty facet sequence for the leaf and
is not treated as a failure: the wrapped call returns the (empty) records
with no diagnostic. -/
theorem C9_malformed_response {env : FetchEnv} {cat : Category}
    {sheet : String} {resp : RawResponse} {g : RawGroup}
    (hok : env (cat.shard.getD "") (cat.query.getD "") = .ok resp)
    (hmal : resp.data = none
      ∨ (∃ d0, resp.data = some d0 ∧ d0.filters = none)
      ∨ (∀ g0 ∈ resp.filtersOf, ¬g0.name = some "Категория" ∨ g0.items = none))
    (hg : g.items = none) :
    facetRecordsResp resp cat.id sheet = []
    ∧ facetGroupRecords g cat.id sheet = []
    ∧ fetchItemsCall env cat sheet
        = (some (facetRecordsResp resp cat.id sheet), [])
    ∧ fetchItemsRecords env cat sheet = facetRecordsResp resp cat.id sheet := by
  have hempty : facetRecordsResp resp cat.id sheet = [] := by
    rcases hmal with hnone | ⟨d0, hd0, hf⟩ | hall
    · have hfo : resp.filtersOf = [] := by
        unfold RawResponse.filtersOf
        rw [hnone]
      unfold facetRecordsResp
      rw [hfo]
      simp
    · have hfo : resp.filtersOf = [] := by
        unfold RawResponse.filtersOf
        rw [hd0]
        simp [hf]
      unfold facetRecordsResp
      rw [hfo]
      simp
    · unfold facetRecordsResp
      rw [List.flatMap_eq_nil_iff]
      intro g0 hg0
      rcases hall g0 hg0 with hname | hitems
      · unfold facetGroupRecords
        cases hi : g0.items with
        | none => rfl
        | some its => simp [hname]
      · unfold facetGroupRecords
        rw [hitems]
  refine ⟨hempty, ?_, ?_, fetchItemsRecords_ok env cat sheet hok⟩
  · unfold facetGroupRecords
    rw [hg]
  · simp [fetchItemsCall, safe_api_call, hok, Except.map]

/-- Witness for C9 with a data-less response and an items-less group. -/
theorem C9_malformed_response_witness :
    facetRecordsResp emptyResp leafB.id "B" = []
    ∧ facetGroupRecords itemlessGroup leafB.id "B" = []
    ∧ fetchItemsCall okEmptyEnv leafB "B"
        = (some (facetRecordsResp emptyResp leafB.id "B"), [])
    ∧ fetchItemsRecords okEmptyEnv leafB "B"
        = facetRecordsResp emptyResp leafB.id "B" :=
  C9_malformed_response rfl (Or.inl rfl) rfl

/-- C10: a childless node whose shard or query is present but equal to the
empty string fails the Python truthiness guard: no facet fetch is performed —
the node's branch emits only its own record and finishes in a single step,
never touching the semaphore. -/
theorem C10_empty_string_params {env : FetchEnv} {cat : Category} {d : Nat}
    {pid : Option Int} {sheet : String}
    (hleaf : childsNonempty cat.childs = false)
    (hempty : cat.shard = some "" ∨ cat.query = some "") :
    hasParams cat = false
    ∧ recurseRecords env cat d pid sheet = [catRecordOf cat d pid sheet]
    ∧ ∀ n q n' rs, Step env (.recurse cat d pid sheet) n q n' rs →
        q = .done ∧ n' = n ∧ rs = [catRecordOf cat d pid sheet] := by
  have hpf : hasParams cat = false := by
    rcases hempty with hs | hq
    · simp [hasParams, hs, optStrTruthy]
    · simp [hasParams, hq, optStrTruthy]
  refine ⟨hpf, recurseRecords_leaf_plain env cat d pid sheet hleaf hpf, ?_⟩
  intro n q n' rs hstep
  cases hstep with
  | expand i nm sh qq u c cs =>
    exfalso
    simp [childsNonempty, Category.childs] at hleaf
  | toFetch _ _ _ _ _ hc hp =>
    exfalso
    rw [hpf] at hp
    exact Bool.false_ne_true hp
  | toLeaf _ _ _ _ _ hc hp => exact ⟨rfl, rfl, rfl⟩

/-- Witness for C10 at a concrete leaf with an empty shard string. -/
theorem C10_empty_string_params_witness :
    hasParams emptyShardCat = false
    ∧ recurseRecords failEnv emptyShardCat 1 none "E"
        = [catRecordOf emptyShardCat 1 none "E"] :=
  ⟨(@C10_empty_string_params failEnv emptyShardCat 1 none "E" rfl (Or.inl rfl)).1,
   (@C10_empty_string_params failEnv emptyShardCat 1 none "E" rfl (Or.inl rfl)).2.1⟩
